import Mathlib

/-!
Verification of the retail-analytics metrics engine in `src/assets/app.js`.

Modelling conventions (shallow embedding):
* JavaScript numbers are modelled exactly as rationals (`ℚ`); the spec's
  "within floating tolerance" statements become exact equalities.
* `Date` values are modelled by their millisecond timestamp (`ℤ`) together
  with the calendar year/month projections the code reads via
  `getFullYear()` / `getMonth()+1`.
* JavaScript `Map` objects are modelled as association lists that keep the
  `Map` insertion/update discipline (update in place, append new keys);
  JavaScript `Set` objects, whose insertion order the engine never uses,
  are modelled as `Finset`.
* `Math.random()`-driven resampling is modelled by an explicit realization
  of the random source: a function giving, for each bootstrap iteration and
  each position, the chosen index.
-/

namespace VibeAnalysis

/-- A parsed `Date`: millisecond timestamp plus the calendar projections
used by the engine (`getFullYear()`, `getMonth()+1`). -/
structure DateT where
  ms : Int
  year : Nat
  month : Nat
deriving DecidableEq, Repr

/-- Raw `Product` record (`products.csv`): `product_id`, `category`. -/
structure Product where
  product_id : String
  category : String
deriving DecidableEq, Repr

/-- Raw `Customer` record (`customers.csv`): `customer_id`, `segment`, `country`. -/
structure Customer where
  customer_id : String
  segment : String
  country : String
deriving DecidableEq, Repr

/-- Raw `Order` record after date parsing; numeric fields default to 0 for
missing values (the `|| 0` guards in the source). -/
structure Order where
  order_id : String
  customer_id : String
  product_id : String
  order_dt : DateT
  quantity : Rat
  unit_price : Rat
  discount : Rat
  channel : String
  payment_method : String
deriving DecidableEq, Repr

/-- Model of `mean(arr)` from app.js line 19: `arr.reduce((a,b)=>a+b,0) / (arr.length || 1)`. -/
def mean (arr : List Rat) : Rat :=
  arr.sum / (if arr.length = 0 then 1 else (arr.length : Rat))

/-- Lookup in an association-list model of a JavaScript `Map`
(`m.get(k)`). -/
def mapGet {α : Type} [DecidableEq α] (m : List (α × Rat)) (k : α) : Option Rat :=
  (m.find? (fun p => p.1 = k)).map Prod.snd

/-- Model of `m.set(k, v)` on the association-list model: update the existing entry
in place, otherwise append at the end (JavaScript `Map` insertion order). -/
def mapSet {α : Type} [DecidableEq α] (m : List (α × Rat)) (k : α) (v : Rat) :
    List (α × Rat) :=
  if m.any (fun p => p.1 = k) then
    m.map (fun p => if p.1 = k then (k, v) else p)
  else
    m ++ [(k, v)]

/-- Model of `groupSum(arr, keyFn, valFn)` from app.js lines 38–46:
`m.set(k, (m.get(k) || 0) + v)` folded over the records. -/
def groupSum {β α : Type} [DecidableEq α]
    (arr : List β) (keyFn : β → α) (valFn : β → Rat) : List (α × Rat) :=
  arr.foldl (fun m x => mapSet m (keyFn x) (((mapGet m (keyFn x)).getD 0) + valFn x)) []

/-- The sum of the values of a map (used both for `toShareMap`'s total and
for stating conservation of revenue). -/
def valuesSum {α : Type} (m : List (α × Rat)) : Rat :=
  (m.map Prod.snd).sum

/-- Model of `toShareMap(map)` from app.js lines 48–53: divide each value by the
total of all values, with the total replaced by 1 when it is 0
(`... || 1`). -/
def toShareMap {α : Type} (m : List (α × Rat)) : List (α × Rat) :=
  let total := valuesSum m
  let t := if total = 0 then 1 else total
  m.map (fun p => (p.1, p.2 / t))

/-- Model of `new Map(products.map(p => [p.product_id, p]))` from app.js line 63:
repeated insertion keyed on `product_id`, so a later record with the same id
overwrites an earlier one (last-write-wins).  The fold keeps the last match. -/
def prodById (products : List Product) (k : String) : Option Product :=
  products.foldl (fun acc p => if p.product_id = k then some p else acc) none

/-- Model of `new Map(customers.map(c => [c.customer_id, c]))` from app.js line 64,
with the same last-write-wins behaviour. -/
def custById (customers : List Customer) (k : String) : Option Customer :=
  customers.foldl (fun acc c => if c.customer_id = k then some c else acc) none

/-- The enriched order produced by the `orders.forEach` block at app.js
lines 65–73 (the source decorates the order record in place; the value
semantics of the added fields are captured here). -/
structure Enriched where
  base : Order
  revenue : Rat
  category : String
  segment : String
  country : String
deriving DecidableEq, Repr

/-- Enrich one order: `revenue = (quantity || 0) * (unit_price || 0)`,
`category` from the product lookup (else `"Unknown"`), `segment`/`country`
from the customer lookup (else `"Unknown"`). -/
def enrichOne (products : List Product) (customers : List Customer) (o : Order) :
    Enriched :=
  { base := o
    revenue := o.quantity * o.unit_price
    category := ((prodById products o.product_id).map Product.category).getD "Unknown"
    segment := ((custById customers o.customer_id).map Customer.segment).getD "Unknown"
    country := ((custById customers o.customer_id).map Customer.country).getD "Unknown" }

/-- The `orders.forEach(o => ...)` enrichment at app.js lines 65–73: one
enriched order per raw order, in input order. -/
def enrichOrders (orders : List Order) (products : List Product)
    (customers : List Customer) : List Enriched :=
  orders.map (enrichOne products customers)

/-- Model of `totalRev = orders.reduce((s,o)=>s+o.revenue,0)` from app.js line 75,
over enriched orders. -/
def totalRev (orders : List Enriched) : Rat :=
  orders.foldl (fun s o => s + o.revenue) 0

/-- Model of `mean(set.filter(o => (o.discount||0) > 0).map(o => o.discount||0)) || 0`
from app.js lines 131–132: the average discount depth over ONLY the
discounted orders of a set (`bfOrders` or `nonbfOrders`).  The trailing
`|| 0` maps a zero mean to 0 and is the identity on rationals. -/
def avgDiscOnly (set0 : List Order) : Rat :=
  let m := mean ((set0.filter (fun o => 0 < o.discount)).map Order.discount)
  if m = 0 then 0 else m

/-- One bootstrap resample (app.js lines 28–29):
`Array.from({length: data.length}, () => data[Math.floor(Math.random()*data.length)])`.
`idx j` is the realized random index of the j-th draw; a realization of
`Math.floor(Math.random()*len)` always satisfies `idx j < len` when
`len > 0`, and no draw happens when the data is empty. -/
def resample (data : List Rat) (idx : Nat → Nat) : List Rat :=
  (List.range data.length).map (fun j => data.getD (idx j) 0)

/-- The result record of `bootstrapCI` (app.js line 35). -/
structure CIResult where
  diff : Rat
  lo : Rat
  hi : Rat
deriving DecidableEq, Repr

/-- The `diffs` array of `bootstrapCI` (app.js lines 26–31): the recorded
resampled mean-differences, one per iteration. -/
def bootstrapDiffs (dataA dataB : List Rat) (B : Nat)
    (ia ib : Nat → Nat → Nat) : List Rat :=
  (List.range B).map (fun i =>
    mean (resample dataA (ia i)) - mean (resample dataB (ib i)))

/-- Model of `bootstrapCI(dataA, dataB, B)` from app.js lines 21–36, parameterized by
a realization of the random source: `ia i j` (resp. `ib i j`) is the index
drawn for position `j` of the A-resample (resp. B-resample) in iteration
`i`.  `lo`/`hi` are the sorted differences at indices
`floor(0.025*B) = B/40` and `floor(0.975*B) = 39*B/40`. -/
def bootstrapCI (dataA dataB : List Rat) (B : Nat)
    (ia ib : Nat → Nat → Nat) : CIResult :=
  let mA := mean dataA
  let mB := mean dataB
  let diff := mA - mB
  let sorted := (bootstrapDiffs dataA dataB B ia ib).mergeSort (fun x y => x ≤ y)
  { diff := diff
    lo := sorted.getD (B / 40) 0
    hi := sorted.getD (39 * B / 40) 0 }

/-- The buyers base (app.js lines 79–85): the distinct customer ids that
appear on at least one order (`Array.from(ordersByCust.keys())`); only the
set of ids (membership and count) is used downstream. -/
def buyersOf (orders : List Order) : List String :=
  (orders.map Order.customer_id).dedup

/-- Model of the reduction `endDate = orders.reduce((max,o)=> o.order_dt > max ? o.order_dt : max, new Date(0))`
from app.js line 135: the maximum order timestamp, floored at epoch 0 by
the `new Date(0)` seed. -/
def endDateMs (orders : List Order) : Int :=
  orders.foldl (fun mx o => if o.order_dt.ms > mx then o.order_dt.ms else mx) 0

/-- One step of the `lastOrder` fold (app.js lines 140–144):
`prev = lastOrder.get(cid) || new Date(0); if (dt > prev) lastOrder.set(cid, dt)`. -/
def loStep (m : String → Option Int) (o : Order) : String → Option Int :=
  fun c =>
    if c = o.customer_id then
      if o.order_dt.ms > ((m o.customer_id).getD 0) then some o.order_dt.ms else m c
    else m c

/-- The `lastOrder` map of `computeChurn` (app.js lines 139–144). -/
def lastOrderFun (orders : List Order) : String → Option Int :=
  orders.foldl loStep (fun _ => none)

/-- The record returned by `computeChurn` (app.js line 150); `cutoff` is
kept as a millisecond timestamp. -/
structure ChurnResult where
  rate : Rat
  churned : Nat
  buyers : Nat
  cutoff : Int
deriving DecidableEq, Repr

/-- Model of `computeChurn(windowDays)` from app.js lines 136–151: a buyer is
churned when `(lastOrder.get(c) || new Date(0)) < cutoff` with
`cutoff = endDate − windowDays*24*3600*1000`. -/
def computeChurn (orders : List Order) (windowDays : Nat) : ChurnResult :=
  let cutoff := endDateMs orders - (windowDays : Int) * 24 * 3600 * 1000
  let buyersSet := buyersOf orders
  let churned := buyersSet.countP (fun c => ((lastOrderFun orders c).getD 0) < cutoff)
  { rate := (churned : Rat) /
      (if buyersSet.length = 0 then 1 else (buyersSet.length : Rat))
    churned := churned
    buyers := buyersSet.length
    cutoff := cutoff }

/-- The year-month cohort key of a date, `ym(d)` from app.js line 162.  The
source formats it as the string `YYYY-MM` and sorts such keys
lexicographically; the pair `(year, month)` under lexicographic order is
that same key for four-digit years. -/
def ymOf (d : DateT) : Nat × Nat :=
  (d.year, d.month)

/-- Chronological (lexicographic) strict order on year-month keys. -/
def ymLt (a b : Nat × Nat) : Prop :=
  a.1 < b.1 ∨ (a.1 = b.1 ∧ a.2 < b.2)

/-- Chronological (lexicographic) order on year-month keys, the order the
source realizes by sorting `YYYY-MM` strings. -/
def ymLe (a b : Nat × Nat) : Prop :=
  a.1 < b.1 ∨ (a.1 = b.1 ∧ a.2 ≤ b.2)

instance ymLtDec (a b : Nat × Nat) : Decidable (ymLt a b) := by
  unfold ymLt; infer_instance

instance ymLeDec (a b : Nat × Nat) : Decidable (ymLe a b) := by
  unfold ymLe; infer_instance

/-- Model of `orders.sort((a,b)=>a.order_dt-b.order_dt)` from app.js line 159: the
orders array sorted in place by timestamp ascending (stable sort). -/
def sortOrdersByDt (orders : List Order) : List Order :=
  orders.mergeSort (fun a b => decide (a.order_dt.ms ≤ b.order_dt.ms))

/-- One step of the `firstOrder` scan (app.js lines 159–161):
`if (!firstOrder.has(cid)) firstOrder.set(cid, dt)`. -/
def foStep (m : String → Option DateT) (o : Order) : String → Option DateT :=
  fun c =>
    if m o.customer_id = none ∧ c = o.customer_id then some o.order_dt else m c

/-- The `firstOrder` map (app.js lines 158–161): scan the timestamp-sorted
orders and keep, per customer, the date of the first occurrence. -/
def firstOrderF (orders : List Order) : String → Option DateT :=
  (sortOrdersByDt orders).foldl foStep (fun _ => none)

/-- Model of `cohortMembers` (app.js lines 163–168): the buyers whose first-order
date falls in the given year-month. -/
def cohortMembers (orders : List Order) (key : Nat × Nat) : Finset String :=
  ((buyersOf orders).filter
      (fun c => (firstOrderF orders c).map ymOf = some key)).toFinset

/-- Model of `buyersByMonth` (app.js lines 169–174): the distinct customer ids with
at least one order in the given calendar month. -/
def buyersByMonth (orders : List Order) (key : Nat × Nat) : Finset String :=
  ((orders.filter (fun o => ymOf o.order_dt = key)).map Order.customer_id).toFinset

/-- The shared month axis (app.js line 175): the sorted deduplicated union
of the active-month keys and the cohort keys. -/
def monthsAxis (orders : List Order) : List (Nat × Nat) :=
  ((orders.map (fun o => ymOf o.order_dt)) ++
      ((buyersOf orders).filterMap (fun c => (firstOrderF orders c).map ymOf))).dedup
    |>.mergeSort (fun a b => decide (ymLe a b))

/-- The cohort retention matrix (app.js lines 176–184): row `i` is cohort
`months[i]`; cell `(i,j)` is `null` when `j < i`, otherwise
`|cohort_i ∩ active_j| / |cohort_i|` (0 for an empty cohort). -/
def retention (orders : List Order) : List (List (Option Rat)) :=
  let months := monthsAxis orders
  months.mapIdx (fun iIdx mi =>
    let cohort := cohortMembers orders mi
    months.mapIdx (fun jIdx mj =>
      if jIdx < iIdx then none
      else
        let buyersSet := buyersByMonth orders mj
        let kept := (cohort.filter (fun c => c ∈ buyersSet)).card
        some (if cohort.card ≠ 0 then (kept : Rat) / (cohort.card : Rat) else 0)))

/-! ### Helper lemmas -/

theorem sum_map_div (l : List Rat) (t : Rat) :
    (l.map (fun v => v / t)).sum = l.sum / t := by
  induction l with
  | nil => simp
  | cons a l ih => simp [ih, add_div]

/-- A fixed all-defaults order record used to build concrete inputs. -/
def baseOrder : Order :=
  { order_id := "", customer_id := "", product_id := ""
    order_dt := ⟨0, 1970, 1⟩, quantity := 0, unit_price := 0, discount := 0
    channel := "", payment_method := "" }

/-! ### C1 — `toShareMap` share totals -/

/-- C1, counterexample: the claim says the output values of `toShareMap`
sum to 1.0 for every non-empty input map, but on the non-empty map
`[("a", 0)]` the total is 0, the divisor is replaced by 1, and the shares
sum to 0, not 1. -/
theorem toShareMap_claim_cex :
    ([(("a" : String), (0 : Rat))] ≠ ([] : List (String × Rat))) ∧
    valuesSum (toShareMap [(("a" : String), (0 : Rat))]) ≠ 1 := by
  constructor
  · simp
  · norm_num [toShareMap, valuesSum]

/-- C1 (amended): `toShareMap` is total (never raises); its output values
sum to 1 whenever the total of the input values is nonzero, and sum to 0
whenever the total is zero — in particular for the empty map, where the
`|| 1` guard substitutes the divisor 1 instead of dividing by zero. -/
theorem toShareMap_sum_spec {α : Type} (m : List (α × Rat)) :
    (valuesSum m ≠ 0 → valuesSum (toShareMap m) = 1) ∧
    (valuesSum m = 0 → valuesSum (toShareMap m) = 0) ∧
    (m = [] → valuesSum (toShareMap m) = 0) := by
  have key : ∀ t : Rat, valuesSum (m.map (fun p => (p.1, p.2 / t)))
      = valuesSum m / t := by
    intro t
    unfold valuesSum
    rw [List.map_map]
    have : (Prod.snd ∘ fun p : α × Rat => (p.1, p.2 / t)) =
        (fun v => v / t) ∘ Prod.snd := rfl
    rw [this, ← List.map_map, sum_map_div]
  refine ⟨fun h => ?_, fun h => ?_, fun h => ?_⟩
  · unfold toShareMap
    simp only [if_neg h, key, div_self h]
  · unfold toShareMap
    simp only [if_pos h, key, h, zero_div]
  · subst h
    simp [toShareMap, valuesSum]

/-- C1 witness: the amended theorem applied to a concrete map with nonzero
total. -/
theorem toShareMap_sum_spec_witness :
    (valuesSum [(("a" : String), (2 : Rat)), ("b", 3)] ≠ 0) ∧
    valuesSum (toShareMap [(("a" : String), (2 : Rat)), ("b", 3)]) = 1 :=
  ⟨by norm_num [valuesSum],
   (toShareMap_sum_spec [(("a" : String), (2 : Rat)), ("b", 3)]).1
     (by norm_num [valuesSum])⟩

/-! ### C8 — promotional average discount depth -/

/-- Concrete order set with discounts `[0, 0, 0.1, 0.2]`. -/
def discOrders : List Order :=
  [baseOrder, baseOrder,
   { baseOrder with discount := 1/10 },
   { baseOrder with discount := 2/10 }]

/-- C8: the average discount depth of an order set is the mean of the
discount values of ONLY the orders with `discount > 0`; it is 0 when no
order is discounted; and on discounts `[0, 0, 0.1, 0.2]` it is
`0.15 = 3/20`, not `0.075 = 3/40`. -/
theorem avgDiscOnly_spec :
    (∀ set0 : List Order,
      avgDiscOnly set0 =
        mean ((set0.filter (fun o => 0 < o.discount)).map Order.discount)) ∧
    (∀ set0 : List Order,
      (set0.filter (fun o => 0 < o.discount)) = [] → avgDiscOnly set0 = 0) ∧
    (avgDiscOnly discOrders = 3/20) ∧ ((3 : Rat)/20 ≠ 3/40) := by
  have habs : ∀ set0 : List Order,
      avgDiscOnly set0 =
        mean ((set0.filter (fun o => 0 < o.discount)).map Order.discount) := by
    intro set0
    unfold avgDiscOnly
    by_cases h : mean ((set0.filter (fun o => 0 < o.discount)).map Order.discount) = 0
    · simp [h]
    · simp [h]
  refine ⟨habs, fun set0 h => ?_, ?_, by norm_num⟩
  · rw [habs, h]
    simp [mean]
  · rw [habs]
    norm_num [discOrders, baseOrder, List.filter, mean]

/-- C8 witness: a concrete set with no discounted order has depth 0. -/
theorem avgDiscOnly_spec_witness :
    ([baseOrder].filter (fun o => 0 < o.discount) = [] ∧ avgDiscOnly [baseOrder] = 0) :=
  ⟨by norm_num [baseOrder, List.filter],
   avgDiscOnly_spec.2.1 [baseOrder] (by norm_num [baseOrder, List.filter])⟩

/-! ### C2 — `groupSum` conservation and lookup characterization -/

theorem mapGet_cons_eq {α : Type} [DecidableEq α] (p : α × Rat) (rest : List (α × Rat))
    (k : α) (h : p.1 = k) : mapGet (p :: rest) k = some p.2 := by
  simp [mapGet, List.find?_cons, h]

theorem mapGet_cons_ne {α : Type} [DecidableEq α] (p : α × Rat) (rest : List (α × Rat))
    (k : α) (h : ¬ p.1 = k) : mapGet (p :: rest) k = mapGet rest k := by
  simp [mapGet, List.find?_cons, h]

theorem mapSet_cons_ne {α : Type} [DecidableEq α] (p : α × Rat) (rest : List (α × Rat))
    (k : α) (v : Rat) (h : ¬ p.1 = k) :
    mapSet (p :: rest) k v = p :: mapSet rest k v := by
  unfold mapSet
  by_cases hr : rest.any (fun q => decide (q.1 = k)) = true
  · have hc : (p :: rest).any (fun q => decide (q.1 = k)) = true := by
      simp [List.any_cons, hr]
    rw [if_pos hc, if_pos hr]
    simp [h]
  · have hc : ¬ (p :: rest).any (fun q => decide (q.1 = k)) = true := by
      simp only [List.any_cons, Bool.or_eq_true, decide_eq_true_eq]
      rintro (hk | hk)
      · exact h hk
      · exact hr hk
    rw [if_neg hc, if_neg hr]
    simp

theorem mapSet_cons_eq {α : Type} [DecidableEq α] (p : α × Rat) (rest : List (α × Rat))
    (k : α) (v : Rat) (h : p.1 = k) (hrest : ∀ q ∈ rest, q.1 ≠ k) :
    mapSet (p :: rest) k v = (k, v) :: rest := by
  unfold mapSet
  have hany : (p :: rest).any (fun q => decide (q.1 = k)) = true := by
    simp [List.any_cons, h]
  rw [if_pos hany]
  simp only [List.map_cons, if_pos h]
  congr 1
  calc rest.map (fun q => if q.1 = k then (k, v) else q)
      = rest.map id := List.map_congr_left (fun q hq => by simp [hrest q hq])
    _ = rest := List.map_id rest

/-- Keys of the map: first components. -/
def mapKeys {α : Type} (m : List (α × Rat)) : List α :=
  m.map Prod.fst

theorem mapKeys_mapSet_nodup {α : Type} [DecidableEq α] (m : List (α × Rat)) (k : α)
    (v : Rat) (h : (mapKeys m).Nodup) : (mapKeys (mapSet m k v)).Nodup := by
  unfold mapSet
  by_cases hany : m.any (fun q => q.1 = k)
  · rw [if_pos hany]
    have : mapKeys (m.map (fun p => if p.1 = k then (k, v) else p)) = mapKeys m := by
      unfold mapKeys
      rw [List.map_map]
      apply List.map_congr_left
      intro p _
      by_cases hp : p.1 = k <;> simp [hp]
    rw [this]; exact h
  · rw [if_neg hany]
    unfold mapKeys at *
    have hnot : k ∉ m.map Prod.fst := by
      intro hk
      rcases List.mem_map.mp hk with ⟨p, hp, hpk⟩
      apply hany
      apply List.any_eq_true.mpr
      exact ⟨p, hp, by rw [hpk]; simp⟩
    simp [List.nodup_append, h, hnot]

theorem mapGet_mapSet_self {α : Type} [DecidableEq α] (m : List (α × Rat)) (k : α)
    (v : Rat) : mapGet (mapSet m k v) k = some v := by
  induction m with
  | nil => simp [mapSet, mapGet, List.find?_cons]
  | cons p rest ih =>
    by_cases hp : p.1 = k
    · unfold mapSet
      have hany : (p :: rest).any (fun q => decide (q.1 = k)) = true := by
        simp [List.any_cons, hp]
      rw [if_pos hany]
      simp only [List.map_cons, if_pos hp]
      exact mapGet_cons_eq _ _ _ rfl
    · rw [mapSet_cons_ne p rest k v hp, mapGet_cons_ne p _ k hp]
      exact ih

theorem mapGet_map_upd {α : Type} [DecidableEq α] (l : List (α × Rat)) (k k' : α)
    (v : Rat) (hkk : ¬ k' = k) :
    mapGet (l.map (fun p => if p.1 = k then (k, v) else p)) k' = mapGet l k' := by
  induction l with
  | nil => rfl
  | cons p rest ih =>
    by_cases hp : p.1 = k
    · simp only [List.map_cons, if_pos hp]
      rw [mapGet_cons_ne _ _ _ (fun h => hkk h.symm), ih]
      rw [mapGet_cons_ne _ _ _ (fun h => hkk (by rw [← hp, h]))]
    · simp only [List.map_cons, if_neg hp]
      by_cases hp' : p.1 = k'
      · rw [mapGet_cons_eq _ _ _ hp', mapGet_cons_eq _ _ _ hp']
      · rw [mapGet_cons_ne _ _ _ hp', mapGet_cons_ne _ _ _ hp', ih]

theorem mapGet_append_single {α : Type} [DecidableEq α] (m : List (α × Rat)) (k k' : α)
    (v : Rat) (hkk : ¬ k' = k) : mapGet (m ++ [(k, v)]) k' = mapGet m k' := by
  have hkk2 : ¬ k = k' := fun h => hkk h.symm
  induction m with
  | nil => simp [mapGet, List.find?_cons, hkk2]
  | cons p rest ih =>
    by_cases hp' : p.1 = k'
    · rw [List.cons_append, mapGet_cons_eq _ _ _ hp', mapGet_cons_eq _ _ _ hp']
    · rw [List.cons_append, mapGet_cons_ne _ _ _ hp', mapGet_cons_ne _ _ _ hp', ih]

theorem mapGet_mapSet_ne {α : Type} [DecidableEq α] (m : List (α × Rat)) (k k' : α)
    (v : Rat) (hkk : ¬ k' = k) : mapGet (mapSet m k v) k' = mapGet m k' := by
  unfold mapSet
  by_cases hany : m.any (fun q => decide (q.1 = k)) = true
  · rw [if_pos hany]
    exact mapGet_map_upd m k k' v hkk
  · rw [if_neg hany]
    exact mapGet_append_single m k k' v hkk

theorem valuesSum_cons {α : Type} (p : α × Rat) (l : List (α × Rat)) :
    valuesSum (p :: l) = p.2 + valuesSum l := by
  simp [valuesSum]

theorem valuesSum_mapSet_add {α : Type} [DecidableEq α] (m : List (α × Rat)) (k : α)
    (w : Rat) (h : (mapKeys m).Nodup) :
    valuesSum (mapSet m k (((mapGet m k).getD 0) + w)) = valuesSum m + w := by
  induction m with
  | nil => simp [mapSet, mapGet, valuesSum]
  | cons p rest ih =>
    have h' : p.1 ∉ mapKeys rest ∧ (mapKeys rest).Nodup := by
      unfold mapKeys at h ⊢
      rw [List.map_cons] at h
      exact List.nodup_cons.mp h
    by_cases hp : p.1 = k
    · have hrest : ∀ q ∈ rest, q.1 ≠ k := by
        intro q hq hqk
        apply h'.1
        rw [hp, ← hqk]
        exact List.mem_map_of_mem Prod.fst hq
      rw [mapGet_cons_eq _ _ _ hp, mapSet_cons_eq _ _ _ _ hp hrest]
      rw [valuesSum_cons, valuesSum_cons]
      simp only [Option.getD_some]
      ring
    · rw [mapGet_cons_ne _ _ _ hp, mapSet_cons_ne _ _ _ _ hp]
      rw [valuesSum_cons, valuesSum_cons, ih h'.2]
      ring

/-- One step of the `groupSum` fold (app.js line 43). -/
def gsStep {β α : Type} [DecidableEq α] (keyFn : β → α) (valFn : β → Rat)
    (m : List (α × Rat)) (x : β) : List (α × Rat) :=
  mapSet m (keyFn x) (((mapGet m (keyFn x)).getD 0) + valFn x)

theorem groupSum_eq_foldl {β α : Type} [DecidableEq α] (arr : List β)
    (keyFn : β → α) (valFn : β → Rat) :
    groupSum arr keyFn valFn = arr.foldl (gsStep keyFn valFn) [] := rfl

theorem foldl_gsStep_nodup {β α : Type} [DecidableEq α] (arr : List β)
    (keyFn : β → α) (valFn : β → Rat) (m0 : List (α × Rat))
    (h : (mapKeys m0).Nodup) :
    (mapKeys (arr.foldl (gsStep keyFn valFn) m0)).Nodup := by
  induction arr generalizing m0 with
  | nil => exact h
  | cons x arr ih => exact ih _ (mapKeys_mapSet_nodup _ _ _ h)

theorem foldl_gsStep_sum {β α : Type} [DecidableEq α] (arr : List β)
    (keyFn : β → α) (valFn : β → Rat) (m0 : List (α × Rat))
    (h : (mapKeys m0).Nodup) :
    valuesSum (arr.foldl (gsStep keyFn valFn) m0)
      = valuesSum m0 + (arr.map valFn).sum := by
  induction arr generalizing m0 with
  | nil => simp
  | cons x arr ih =>
    rw [List.foldl_cons]
    have hnd : (mapKeys (gsStep keyFn valFn m0 x)).Nodup :=
      mapKeys_mapSet_nodup _ _ _ h
    rw [ih (gsStep keyFn valFn m0 x) hnd]
    have hsum : valuesSum (gsStep keyFn valFn m0 x) = valuesSum m0 + valFn x :=
      valuesSum_mapSet_add m0 (keyFn x) (valFn x) h
    rw [hsum, List.map_cons, List.sum_cons]
    ring

theorem foldl_gsStep_get {β α : Type} [DecidableEq α] (arr : List β)
    (keyFn : β → α) (valFn : β → Rat) (k : α) (m0 : List (α × Rat)) :
    mapGet (arr.foldl (gsStep keyFn valFn) m0) k =
      if (arr.filter (fun x => keyFn x = k)).isEmpty then mapGet m0 k
      else some (((mapGet m0 k).getD 0)
        + ((arr.filter (fun x => keyFn x = k)).map valFn).sum) := by
  induction arr generalizing m0 with
  | nil => simp
  | cons x arr ih =>
    rw [List.foldl_cons]
    by_cases hx : keyFn x = k
    · have h1 : mapGet (gsStep keyFn valFn m0 x) k
          = some (((mapGet m0 k).getD 0) + valFn x) := by
        unfold gsStep
        rw [hx]
        exact mapGet_mapSet_self m0 k _
      have hfc : (x :: arr).filter (fun y => decide (keyFn y = k))
          = x :: arr.filter (fun y => decide (keyFn y = k)) := by
        rw [List.filter_cons]
        simp [hx]
      rw [ih, h1, hfc]
      cases hfe : (arr.filter (fun y => decide (keyFn y = k))).isEmpty with
      | true =>
        have : arr.filter (fun y => decide (keyFn y = k)) = [] :=
          List.isEmpty_iff.mp hfe
        simp [hfe, this]
      | false =>
        simp only [hfe, if_false, List.isEmpty_cons, Option.getD_some,
          List.map_cons, List.sum_cons, Bool.false_eq_true]
        congr 1
        ring
    · have h1 : mapGet (gsStep keyFn valFn m0 x) k = mapGet m0 k := by
        unfold gsStep
        exact mapGet_mapSet_ne m0 (keyFn x) k _ (fun hk => hx hk.symm)
      have hfc : (x :: arr).filter (fun y => decide (keyFn y = k))
          = arr.filter (fun y => decide (keyFn y = k)) := by
        rw [List.filter_cons]
        simp [hx]
      rw [ih, h1, hfc]

theorem totalRev_eq_sum (es : List Enriched) :
    totalRev es = (es.map Enriched.revenue).sum := by
  have key : ∀ (l : List Enriched) (a : Rat),
      l.foldl (fun s o => s + o.revenue) a = a + (l.map Enriched.revenue).sum := by
    intro l
    induction l with
    | nil => simp
    | cons e l ih =>
      intro a
      rw [List.foldl_cons, ih]
      rw [List.map_cons, List.sum_cons]
      ring
  unfold totalRev
  rw [key]
  simp

/-- C2: for every record sequence and every keyFn/valueFn, the values of
`groupSum` sum to the sum of valueFn over all records, the keys are
unique, and each key present maps to the sum of valueFn over exactly the
records sharing that key (keys absent from the records are absent from the
map); instantiated at `valueFn = revenue`, the values of
`groupSum(orders, keyFn, revenue)` always sum to `totalRev`. -/
theorem groupSum_spec :
    (∀ (β α : Type) [DecidableEq α] (arr : List β) (keyFn : β → α) (valFn : β → Rat),
      valuesSum (groupSum arr keyFn valFn) = (arr.map valFn).sum ∧
      (mapKeys (groupSum arr keyFn valFn)).Nodup ∧
      ∀ k, mapGet (groupSum arr keyFn valFn) k =
        if (arr.filter (fun x => keyFn x = k)).isEmpty then none
        else some (((arr.filter (fun x => keyFn x = k)).map valFn).sum)) ∧
    (∀ (α : Type) [DecidableEq α] (es : List Enriched) (keyFn : Enriched → α),
      valuesSum (groupSum es keyFn Enriched.revenue) = totalRev es) := by
  have main : ∀ (β α : Type) [DecidableEq α] (arr : List β) (keyFn : β → α)
      (valFn : β → Rat),
      valuesSum (groupSum arr keyFn valFn) = (arr.map valFn).sum := by
    intro β α _ arr keyFn valFn
    rw [groupSum_eq_foldl, foldl_gsStep_sum arr keyFn valFn [] (by simp [mapKeys])]
    simp [valuesSum]
  refine ⟨fun β α inst arr keyFn valFn => ⟨main β α arr keyFn valFn, ?_, ?_⟩,
    fun α inst es keyFn => ?_⟩
  · rw [groupSum_eq_foldl]
    exact foldl_gsStep_nodup arr keyFn valFn [] (by simp [mapKeys])
  · intro k
    rw [groupSum_eq_foldl, foldl_gsStep_get arr keyFn valFn k []]
    cases hfe : (arr.filter (fun y => decide (keyFn y = k))).isEmpty with
    | true => simp [hfe, mapGet]
    | false => simp [hfe, mapGet]
  · rw [main Enriched α es keyFn Enriched.revenue, totalRev_eq_sum]

/-! ### C3 — join and enrichment -/

theorem foldl_lastMatch_eq_find {γ : Type} (f : γ → String) (l : List γ) (k : String) :
    l.foldl (fun acc x => if f x = k then some x else acc) none
      = l.reverse.find? (fun x => f x = k) := by
  induction l using List.reverseRecOn with
  | nil => rfl
  | append_singleton l x ih =>
    rw [List.foldl_append, List.reverse_append]
    simp only [List.foldl_cons, List.foldl_nil, List.reverse_singleton,
      List.singleton_append, List.find?_cons]
    by_cases h : f x = k
    · simp [h]
    · simp [h, ih]

/-- C3: enrichment produces exactly one enriched order per input order, in
input order; an unresolved `product_id` yields category `"Unknown"` and an
unresolved `customer_id` yields segment and country `"Unknown"`; the
lookup maps resolve a duplicated id to the last-seen record
(`prodById`/`custById` agree with `find?` over the reversed dataset, and
are `none` exactly when no record carries the id). -/
theorem enrichment_spec :
    (∀ (orders : List Order) (products : List Product) (customers : List Customer),
      (enrichOrders orders products customers).length = orders.length ∧
      (∀ i, (enrichOrders orders products customers).get? i
          = (orders.get? i).map (enrichOne products customers))) ∧
    (∀ (products : List Product) (customers : List Customer) (o : Order),
      (enrichOne products customers o).base = o ∧
      (enrichOne products customers o).revenue = o.quantity * o.unit_price ∧
      (prodById products o.product_id = none →
        (enrichOne products customers o).category = "Unknown") ∧
      (custById customers o.customer_id = none →
        (enrichOne products customers o).segment = "Unknown" ∧
        (enrichOne products customers o).country = "Unknown")) ∧
    (∀ (products : List Product) (k : String),
      prodById products k = products.reverse.find? (fun p => p.product_id = k) ∧
      (prodById products k = none ↔ ∀ p ∈ products, p.product_id ≠ k)) ∧
    (∀ (customers : List Customer) (k : String),
      custById customers k = customers.reverse.find? (fun c => c.customer_id = k) ∧
      (custById customers k = none ↔ ∀ c ∈ customers, c.customer_id ≠ k)) := by
  refine ⟨fun orders products customers => ⟨by simp [enrichOrders], fun i => ?_⟩,
    fun products customers o => ⟨rfl, rfl, fun h => ?_, fun h => ?_⟩,
    fun products k => ⟨foldl_lastMatch_eq_find Product.product_id products k, ?_⟩,
    fun customers k => ⟨foldl_lastMatch_eq_find Customer.customer_id customers k, ?_⟩⟩
  · simp [enrichOrders, List.get?_map]
  · simp [enrichOne, h]
  · simp [enrichOne, h]
  · rw [show prodById products k
          = products.reverse.find? (fun p => p.product_id = k) from
        foldl_lastMatch_eq_find Product.product_id products k,
      List.find?_eq_none]
    constructor
    · intro h p hp hpk
      exact absurd (by simp [hpk]) (h p (List.mem_reverse.mpr hp))
    · intro h p hp
      simp [h p (List.mem_reverse.mp hp)]
  · rw [show custById customers k
          = customers.reverse.find? (fun c => c.customer_id = k) from
        foldl_lastMatch_eq_find Customer.customer_id customers k,
      List.find?_eq_none]
    constructor
    · intro h c hc hck
      exact absurd (by simp [hck]) (h c (List.mem_reverse.mpr hc))
    · intro h c hc
      simp [h c (List.mem_reverse.mp hc)]

/-- C3 witness: the placeholder branches at a concrete unresolvable input. -/
theorem enrichment_spec_witness :
    prodById ([] : List Product) "p0" = none ∧
    (enrichOne [] [] baseOrder).category = "Unknown" ∧
    (enrichOne [] [] baseOrder).segment = "Unknown" ∧
    (enrichOne [] [] baseOrder).country = "Unknown" :=
  ⟨rfl, (enrichment_spec.2.1 [] [] baseOrder).2.2.1 rfl,
   ((enrichment_spec.2.1 [] [] baseOrder).2.2.2 rfl).1,
   ((enrichment_spec.2.1 [] [] baseOrder).2.2.2 rfl).2⟩

/-! ### C4 — bootstrap confidence interval -/

theorem sorted_getD_mono (l : List Rat)
    (hs : List.Pairwise (fun a b : Rat => (decide (a ≤ b)) = true) l)
    (i j : Nat) (hij : i ≤ j) (hj : j < l.length) :
    l.getD i 0 ≤ l.getD j 0 := by
  rcases Nat.lt_or_ge i j with hlt | hge
  · have hi : i < l.length := lt_trans hlt hj
    rw [List.getD_eq_getElem l 0 hi, List.getD_eq_getElem l 0 hj]
    have := List.pairwise_iff_get.mp hs ⟨i, hi⟩ ⟨j, hj⟩ hlt
    rw [List.get_eq_getElem, List.get_eq_getElem] at this
    exact of_decide_eq_true this
  · have : i = j := le_antisymm hij hge
    rw [this]

/-- C4: for every pair of samples, every iteration count `B ≥ 1` and every
realization of the random index source, `bootstrapCI` returns
`diff = mean(A) − mean(B)` (the mean of an empty sample being 0, so it
never raises); `lo`/`hi` are the ascending-sorted resampled differences at
indices `⌊0.025·B⌋ = B/40` and `⌊0.975·B⌋ = 39·B/40`; `lo ≤ hi` always
holds; and for identical samples `diff = 0`. -/
theorem bootstrapCI_spec (dataA dataB : List Rat) (B : Nat)
    (ia ib : Nat → Nat → Nat) (hB : 1 ≤ B) :
    (bootstrapCI dataA dataB B ia ib).diff = mean dataA - mean dataB ∧
    (bootstrapCI dataA dataB B ia ib).lo
      = ((bootstrapDiffs dataA dataB B ia ib).mergeSort
          (fun x y => x ≤ y)).getD (B / 40) 0 ∧
    (bootstrapCI dataA dataB B ia ib).hi
      = ((bootstrapDiffs dataA dataB B ia ib).mergeSort
          (fun x y => x ≤ y)).getD (39 * B / 40) 0 ∧
    (B / 40 = Nat.floor ((1 / 40 : Rat) * B)
      ∧ 39 * B / 40 = Nat.floor ((39 / 40 : Rat) * B)) ∧
    (bootstrapCI dataA dataB B ia ib).lo ≤ (bootstrapCI dataA dataB B ia ib).hi ∧
    (dataA = dataB → (bootstrapCI dataA dataB B ia ib).diff = 0) := by
  refine ⟨rfl, rfl, rfl, ⟨?_, ?_⟩, ?_, fun h => by simp [bootstrapCI, h]⟩
  · rw [show ((1 : Rat)/40) * B = (B : Rat) / (40 : Nat) by push_cast; ring]
    rw [Nat.floor_div_nat, Nat.floor_natCast]
  · rw [show ((39 : Rat)/40) * B = ((39 * B : Nat) : Rat) / (40 : Nat) by
      push_cast; ring]
    rw [Nat.floor_div_nat, Nat.floor_natCast]
  · have htrans : ∀ a b c : Rat, (fun x y : Rat => decide (x ≤ y)) a b = true →
        (fun x y : Rat => decide (x ≤ y)) b c = true →
        (fun x y : Rat => decide (x ≤ y)) a c = true := by
      intro a b c hab hbc
      simp only [decide_eq_true_eq] at hab hbc ⊢
      exact le_trans hab hbc
    have htot : ∀ a b : Rat, ((fun x y : Rat => decide (x ≤ y)) a b
        || (fun x y : Rat => decide (x ≤ y)) b a) = true := by
      intro a b
      simp [le_total]
    have hsorted :=
      List.sorted_mergeSort htrans htot (bootstrapDiffs dataA dataB B ia ib)
    have hlen : ((bootstrapDiffs dataA dataB B ia ib).mergeSort
        (fun x y => x ≤ y)).length = B := by
      rw [List.length_mergeSort]
      simp [bootstrapDiffs]
    show ((bootstrapDiffs dataA dataB B ia ib).mergeSort
        (fun x y => x ≤ y)).getD (B / 40) 0
      ≤ ((bootstrapDiffs dataA dataB B ia ib).mergeSort
        (fun x y => x ≤ y)).getD (39 * B / 40) 0
    apply sorted_getD_mono _ hsorted
    · exact Nat.div_le_div_right (by omega)
    · rw [hlen]
      rw [Nat.div_lt_iff_lt_mul (by norm_num)]
      omega

/-- C4 witness: the theorem applied at a concrete pair of samples and a
concrete realization of the random source. -/
theorem bootstrapCI_spec_witness :
    (1 ≤ 2) ∧
    (bootstrapCI [2] [1] 2 (fun _ _ => 0) (fun _ _ => 0)).lo
      ≤ (bootstrapCI [2] [1] 2 (fun _ _ => 0) (fun _ _ => 0)).hi :=
  ⟨by decide,
   (bootstrapCI_spec [2] [1] 2 (fun _ _ => 0) (fun _ _ => 0)
      (by decide)).2.2.2.2.1⟩

/-! ### C5 — churn classification -/

/-- The millisecond timestamps of one customer's orders. -/
def custTs (orders : List Order) (c : String) : List Int :=
  (orders.filter (fun o => o.customer_id = c)).map (fun o => o.order_dt.ms)

/-- All order timestamps of the dataset. -/
def allTs (orders : List Order) : List Int :=
  orders.map (fun o => o.order_dt.ms)

theorem endDateMs_eq_foldl_max (orders : List Order) :
    endDateMs orders = (allTs orders).foldl (fun a t => max a t) 0 := by
  unfold endDateMs allTs
  rw [List.foldl_map]
  congr 1
  funext mx o
  split_ifs with h <;> omega

theorem foldl_max_spec (l : List Int) : ∀ a : Int,
    (l.foldl (fun x t => max x t) a = a ∨ l.foldl (fun x t => max x t) a ∈ l) ∧
    a ≤ l.foldl (fun x t => max x t) a ∧
    ∀ t ∈ l, t ≤ l.foldl (fun x t => max x t) a := by
  induction l with
  | nil => intro a; exact ⟨Or.inl rfl, le_refl a, by simp⟩
  | cons t l ih =>
    intro a
    rw [List.foldl_cons]
    obtain ⟨hmem, hle, hbound⟩ := ih (max a t)
    refine ⟨?_, le_trans (le_max_left a t) hle, ?_⟩
    · rcases hmem with h | h
      · rcases max_choice a t with hm | hm
        · exact Or.inl (by rw [h, hm])
        · exact Or.inr (by rw [h, hm]; exact List.mem_cons_self t l)
      · exact Or.inr (List.mem_cons_of_mem t h)
    · intro u hu
      rcases List.mem_cons.mp hu with rfl | hu
      · exact le_trans (le_max_right a u) hle
      · exact hbound u hu

theorem foldl_max_mem_of_nonneg (l : List Int) (hne : l ≠ [])
    (hpos : ∀ t ∈ l, 0 ≤ t) :
    l.foldl (fun x t => max x t) 0 ∈ l ∧
    ∀ t ∈ l, t ≤ l.foldl (fun x t => max x t) 0 := by
  obtain ⟨hmem, _, hbound⟩ := foldl_max_spec l 0
  refine ⟨?_, hbound⟩
  rcases hmem with h | h
  · cases l with
    | nil => exact absurd rfl hne
    | cons u l =>
      have hu0 : 0 ≤ u := hpos u (List.mem_cons_self u l)
      have hub : u ≤ 0 := h ▸ hbound u (List.mem_cons_self u l)
      have : u = 0 := le_antisymm hub hu0
      rw [h, ← this]
      exact List.mem_cons_self u l
  · exact h

theorem custTs_cons_pos (o : Order) (orders : List Order) (c : String)
    (h : o.customer_id = c) :
    custTs (o :: orders) c = o.order_dt.ms :: custTs orders c := by
  unfold custTs
  rw [List.filter_cons_of_pos (by simp [h]), List.map_cons]

theorem custTs_cons_neg (o : Order) (orders : List Order) (c : String)
    (h : ¬ o.customer_id = c) :
    custTs (o :: orders) c = custTs orders c := by
  unfold custTs
  rw [List.filter_cons_of_neg (by simp [h])]

theorem lastOrderFun_go (orders : List Order) (c : String) :
    ∀ m : String → Option Int,
      ((orders.foldl loStep m) c).getD 0
        = (custTs orders c).foldl (fun a t => max a t) ((m c).getD 0) := by
  induction orders with
  | nil => intro m; rfl
  | cons o orders ih =>
    intro m
    rw [List.foldl_cons]
    by_cases hc : o.customer_id = c
    · rw [custTs_cons_pos o orders c hc, List.foldl_cons, ih (loStep m o)]
      congr 1
      unfold loStep
      rw [if_pos hc.symm, hc]
      split_ifs with h
      · rw [Option.getD_some]
        exact (max_eq_right (by omega)).symm
      · exact (max_eq_left (by omega)).symm
    · rw [custTs_cons_neg o orders c hc, ih (loStep m o)]
      congr 1
      unfold loStep
      rw [if_neg (fun h => hc h.symm)]

theorem lastOrderFun_getD (orders : List Order) (c : String) :
    (lastOrderFun orders c).getD 0
      = (custTs orders c).foldl (fun a t => max a t) 0 := by
  unfold lastOrderFun
  rw [lastOrderFun_go orders c (fun _ => none)]
  rfl

theorem mem_buyersOf (orders : List Order) (c : String) :
    c ∈ buyersOf orders ↔ ∃ o ∈ orders, o.customer_id = c := by
  unfold buyersOf
  rw [List.mem_dedup, List.mem_map]

theorem custTs_ne_nil_of_buyer (orders : List Order) (c : String)
    (h : c ∈ buyersOf orders) : custTs orders c ≠ [] := by
  obtain ⟨o, ho, hoc⟩ := (mem_buyersOf orders c).mp h
  have hf : o ∈ orders.filter (fun o => o.customer_id = c) :=
    List.mem_filter.mpr ⟨ho, by simp [hoc]⟩
  have hmem : o.order_dt.ms ∈ custTs orders c :=
    List.mem_map_of_mem (fun o => o.order_dt.ms) hf
  intro hnil
  rw [hnil] at hmem
  exact List.not_mem_nil _ hmem

/-- A minimal order record with a given customer id and timestamp. -/
def mkOrd (cid : String) (ms : Int) (y mo : Nat) : Order :=
  { baseOrder with customer_id := cid, order_dt := ⟨ms, y, mo⟩ }

/-- Orders exercising the `new Date(0)` floor: buyer `X` bought two days
before the epoch, buyer `Y` 50 ms after it. -/
def churnCexOrders : List Order :=
  [mkOrd "X" (-172800000) 1969 12, mkOrd "Y" 50 1970 1]

/-- C5, counterexample: the claim says a buyer is churned exactly when the
maximum timestamp among their orders is below `cutoff = endDate − windowDays`.
For buyer `X`, whose only order is 2 days before the epoch, with a 1-day
window the claimed criterion holds (`−172800000 < cutoff`), yet the
classifier counts nobody churned: the `lastOrder.get(c) || new Date(0)`
default floors X's last-order date at epoch 0, which is not below cutoff. -/
theorem computeChurn_claim_cex :
    ("X" ∈ buyersOf churnCexOrders) ∧
    custTs churnCexOrders "X" = [(-172800000 : Int)] ∧
    ((50 : Int) ∈ allTs churnCexOrders) ∧
    (∀ t ∈ allTs churnCexOrders, t ≤ 50) ∧
    (computeChurn churnCexOrders 1).cutoff = 50 - 1 * 24 * 3600 * 1000 ∧
    ((-172800000 : Int) < (computeChurn churnCexOrders 1).cutoff) ∧
    (computeChurn churnCexOrders 1).churned = 0 := by
  refine ⟨by decide, by decide, by decide, by decide, by decide, by decide, ?_⟩
  decide

/-- C5 (amended): provided every order timestamp is at or after the epoch
(the code seeds its maxima with `new Date(0)`, so pre-1970 timestamps are
silently floored), the churn classifier behaves as claimed: `cutoff` is the
maximum dataset timestamp minus `windowDays` in ms; a buyer is marked
churned exactly when the maximum timestamp among their orders is strictly
below `cutoff` (so a buyer whose only order is exactly at `cutoff` is NOT
churned); buyers are not double-counted (the buyers base is duplicate-free)
and `rate = churned / buyers`. -/
theorem computeChurn_spec (orders : List Order) (w : Nat)
    (hpos : ∀ o ∈ orders, 0 ≤ o.order_dt.ms) (hne : orders ≠ []) :
    (∃ endTs, endTs ∈ allTs orders ∧ (∀ t ∈ allTs orders, t ≤ endTs) ∧
      (computeChurn orders w).cutoff = endTs - (w : Int) * 24 * 3600 * 1000) ∧
    (∀ c ∈ buyersOf orders, ∃ m, m ∈ custTs orders c ∧
      (∀ t ∈ custTs orders c, t ≤ m) ∧
      (((lastOrderFun orders c).getD 0 < (computeChurn orders w).cutoff) ↔
        m < (computeChurn orders w).cutoff)) ∧
    (∀ c ∈ buyersOf orders, custTs orders c = [(computeChurn orders w).cutoff] →
      ¬ ((lastOrderFun orders c).getD 0 < (computeChurn orders w).cutoff)) ∧
    (buyersOf orders).Nodup ∧
    (computeChurn orders w).buyers = (buyersOf orders).length ∧
    (computeChurn orders w).churned = (buyersOf orders).countP
      (fun c => (lastOrderFun orders c).getD 0 < (computeChurn orders w).cutoff) ∧
    (computeChurn orders w).rate = ((computeChurn orders w).churned : Rat)
      / ((computeChurn orders w).buyers : Rat) := by
  have hallpos : ∀ t ∈ allTs orders, 0 ≤ t := by
    intro t ht
    obtain ⟨o, ho, rfl⟩ := List.mem_map.mp ht
    exact hpos o ho
  have hallne : allTs orders ≠ [] := by
    cases orders with
    | nil => exact absurd rfl hne
    | cons o os => simp [allTs]
  refine ⟨?_, ?_, ?_, List.nodup_dedup _, rfl, rfl, ?_⟩
  · obtain ⟨hmem, hbound⟩ := foldl_max_mem_of_nonneg (allTs orders) hallne hallpos
    refine ⟨(allTs orders).foldl (fun x t => max x t) 0, hmem, hbound, ?_⟩
    rw [show (computeChurn orders w).cutoff
          = endDateMs orders - (w : Int) * 24 * 3600 * 1000 from rfl,
        endDateMs_eq_foldl_max]
  · intro c hc
    have hcne := custTs_ne_nil_of_buyer orders c hc
    have hcpos : ∀ t ∈ custTs orders c, 0 ≤ t := by
      intro t ht
      obtain ⟨o, ho, rfl⟩ := List.mem_map.mp ht
      exact hpos o (List.mem_of_mem_filter ho)
    obtain ⟨hmem, hbound⟩ := foldl_max_mem_of_nonneg (custTs orders c) hcne hcpos
    refine ⟨(custTs orders c).foldl (fun x t => max x t) 0, hmem, hbound, ?_⟩
    rw [lastOrderFun_getD]
  · intro c hc hcut
    rw [lastOrderFun_getD, hcut]
    simp only [List.foldl_cons, List.foldl_nil]
    exact not_lt.mpr (le_max_right 0 _)
  · have hlen : ¬ (buyersOf orders).length = 0 := by
      cases orders with
      | nil => exact absurd rfl hne
      | cons o os =>
        have hm : o.customer_id ∈ buyersOf (o :: os) :=
          (mem_buyersOf _ _).mpr ⟨o, List.mem_cons_self o os, rfl⟩
        exact (List.length_pos_of_mem hm).ne'
    rw [show (computeChurn orders w).rate
          = ((computeChurn orders w).churned : Rat)
            / (if (buyersOf orders).length = 0 then 1
               else ((buyersOf orders).length : Rat)) from rfl,
        if_neg hlen]
    rfl

/-- C5 witness: the amended theorem applied to a concrete dataset with
non-negative timestamps. -/
theorem computeChurn_spec_witness :
    (∀ o ∈ [mkOrd "A" 100 1970 1], 0 ≤ o.order_dt.ms) ∧
    (computeChurn [mkOrd "A" 100 1970 1] 0).rate
      = ((computeChurn [mkOrd "A" 100 1970 1] 0).churned : Rat)
        / ((computeChurn [mkOrd "A" 100 1970 1] 0).buyers : Rat) :=
  ⟨by decide,
   (computeChurn_spec [mkOrd "A" 100 1970 1] 0 (by decide)
      (by simp)).2.2.2.2.2.2⟩

/-! ### C10 — churn is antitone in the window length -/

/-- C10: for a fixed order set and window lengths `w1 ≤ w2`, the w2-cutoff
is at most the w1-cutoff, every buyer the classifier marks churned at
window `w2` is also marked churned at window `w1`, and both the churned
count and the rate at `w2` are at most those at `w1`. -/
theorem computeChurn_antitone (orders : List Order) (w1 w2 : Nat) (h : w1 ≤ w2) :
    (computeChurn orders w2).cutoff ≤ (computeChurn orders w1).cutoff ∧
    (∀ c, ((lastOrderFun orders c).getD 0 < (computeChurn orders w2).cutoff) →
      ((lastOrderFun orders c).getD 0 < (computeChurn orders w1).cutoff)) ∧
    (computeChurn orders w2).churned ≤ (computeChurn orders w1).churned ∧
    (computeChurn orders w2).rate ≤ (computeChurn orders w1).rate := by
  have hcut : (computeChurn orders w2).cutoff ≤ (computeChurn orders w1).cutoff := by
    rw [show (computeChurn orders w2).cutoff
          = endDateMs orders - (w2 : Int) * 24 * 3600 * 1000 from rfl,
        show (computeChurn orders w1).cutoff
          = endDateMs orders - (w1 : Int) * 24 * 3600 * 1000 from rfl]
    have hw : (w1 : Int) ≤ (w2 : Int) := by exact_mod_cast h
    omega
  have himp : ∀ c, ((lastOrderFun orders c).getD 0 < (computeChurn orders w2).cutoff) →
      ((lastOrderFun orders c).getD 0 < (computeChurn orders w1).cutoff) :=
    fun c hlt => lt_of_lt_of_le hlt hcut
  have hcount : (computeChurn orders w2).churned ≤ (computeChurn orders w1).churned := by
    rw [show (computeChurn orders w2).churned = (buyersOf orders).countP
          (fun c => (lastOrderFun orders c).getD 0 < (computeChurn orders w2).cutoff)
        from rfl,
      show (computeChurn orders w1).churned = (buyersOf orders).countP
          (fun c => (lastOrderFun orders c).getD 0 < (computeChurn orders w1).cutoff)
        from rfl]
    apply List.countP_mono_left
    intro c _ hc
    simp only [decide_eq_true_eq] at hc ⊢
    exact himp c hc
  refine ⟨hcut, himp, hcount, ?_⟩
  have hD : (0 : Rat) < (if (buyersOf orders).length = 0 then (1 : Rat)
      else ((buyersOf orders).length : Rat)) := by
    split_ifs with h0
    · norm_num
    · exact_mod_cast Nat.pos_of_ne_zero h0
  rw [show (computeChurn orders w2).rate = ((computeChurn orders w2).churned : Rat)
        / (if (buyersOf orders).length = 0 then (1 : Rat)
           else ((buyersOf orders).length : Rat)) from rfl,
      show (computeChurn orders w1).rate = ((computeChurn orders w1).churned : Rat)
        / (if (buyersOf orders).length = 0 then (1 : Rat)
           else ((buyersOf orders).length : Rat)) from rfl]
  exact (div_le_div_iff_of_pos_right hD).mpr (by exact_mod_cast hcount)

/-- C10 witness: the theorem applied to a concrete order set and windows. -/
theorem computeChurn_antitone_witness :
    (1 ≤ 2) ∧
    (computeChurn [mkOrd "A" 100 1970 1] 2).rate
      ≤ (computeChurn [mkOrd "A" 100 1970 1] 1).rate :=
  ⟨by decide, (computeChurn_antitone [mkOrd "A" 100 1970 1] 1 2 (by decide)).2.2.2⟩

/-! ### C9 — (im)mutability of the raw inputs -/

/-- Two orders whose input sequence is not in timestamp order. -/
def mutOrders : List Order :=
  [mkOrd "A" 5 1970 1, mkOrd "B" 3 1970 1]

/-- C9, counterexample: the claim says the orders sequence's element order
is unchanged throughout the run, but the cohort step
(`orders.sort((a,b)=>a.order_dt-b.order_dt)`, app.js line 159) sorts the
orders array in place: on a two-order input with descending timestamps the
resulting sequence differs from the input sequence. -/
theorem orders_mutation_cex : sortOrdersByDt mutOrders ≠ mutOrders := by
  intro heq
  have htrans : ∀ a b c : Order,
      (fun x y : Order => decide (x.order_dt.ms ≤ y.order_dt.ms)) a b = true →
      (fun x y : Order => decide (x.order_dt.ms ≤ y.order_dt.ms)) b c = true →
      (fun x y : Order => decide (x.order_dt.ms ≤ y.order_dt.ms)) a c = true := by
    intro a b c hab hbc
    simp only [decide_eq_true_eq] at hab hbc ⊢
    omega
  have htot : ∀ a b : Order,
      ((fun x y : Order => decide (x.order_dt.ms ≤ y.order_dt.ms)) a b
        || (fun x y : Order => decide (x.order_dt.ms ≤ y.order_dt.ms)) b a) = true := by
    intro a b
    simp only [Bool.or_eq_true, decide_eq_true_eq]
    omega
  have hs := List.sorted_mergeSort htrans htot mutOrders
  rw [show mutOrders.mergeSort
        (fun a b : Order => decide (a.order_dt.ms ≤ b.order_dt.ms))
      = sortOrdersByDt mutOrders from rfl, heq] at hs
  rw [show mutOrders = [mkOrd "A" 5 1970 1, mkOrd "B" 3 1970 1] from rfl,
    List.pairwise_cons] at hs
  have hrel := hs.1 (mkOrd "B" 3 1970 1) (List.mem_cons_self _ _)
  simp only [decide_eq_true_eq, mkOrd, baseOrder] at hrel
  omega

/-- C9 (amended): the engine is not mutation-free on the orders input — the
cohort step re-orders the orders sequence in place — but the re-ordered
sequence is exactly a permutation of the enriched orders (no record is
dropped or altered by the sort), and enrichment carries every raw order
record into its enriched form unchanged, in input position; the customers
and products datasets are only ever read. -/
theorem pipeline_mutation_spec :
    (∀ orders : List Order, (sortOrdersByDt orders).Perm orders) ∧
    (∀ (orders : List Order) (products : List Product) (customers : List Customer)
      (i : Nat),
      ((enrichOrders orders products customers).get? i).map Enriched.base
        = orders.get? i) := by
  constructor
  · intro orders
    exact List.mergeSort_perm orders _
  · intro orders products customers i
    rw [enrichOrders, List.get?_map, Option.map_map]
    cases orders.get? i with
    | none => rfl
    | some o => rfl

/-! ### C6/C7 — cohort retention matrix -/

theorem ymLeB_trans : ∀ a b c : Nat × Nat, (decide (ymLe a b)) = true →
    (decide (ymLe b c)) = true → (decide (ymLe a c)) = true := by
  intro a b c hab hbc
  simp only [decide_eq_true_eq] at hab hbc ⊢
  unfold ymLe at hab hbc ⊢
  omega

theorem ymLeB_total : ∀ a b : Nat × Nat,
    ((decide (ymLe a b)) || (decide (ymLe b a))) = true := by
  intro a b
  simp only [Bool.or_eq_true, decide_eq_true_eq]
  unfold ymLe
  omega

theorem ymLt_irrefl (a : Nat × Nat) : ¬ ymLt a a := by
  unfold ymLt
  omega

theorem ymLt_asymm (a b : Nat × Nat) : ymLt a b → ¬ ymLt b a := by
  unfold ymLt
  omega

theorem ymLe_ne_lt (a b : Nat × Nat) (hle : ymLe a b) (hne : a ≠ b) : ymLt a b := by
  rw [Ne, Prod.ext_iff] at hne
  unfold ymLe at hle
  unfold ymLt
  omega

theorem monthsAxis_sorted (orders : List Order) :
    List.Pairwise (fun a b => (decide (ymLe a b)) = true) (monthsAxis orders) := by
  unfold monthsAxis
  exact List.sorted_mergeSort ymLeB_trans ymLeB_total _

theorem monthsAxis_nodup (orders : List Order) : (monthsAxis orders).Nodup := by
  unfold monthsAxis
  exact (List.mergeSort_perm _ _).symm.nodup (List.nodup_dedup _)

theorem monthsAxis_get_lt (orders : List Order) (i j : Nat)
    (hi : i < (monthsAxis orders).length) (hj : j < (monthsAxis orders).length)
    (hij : i < j) :
    ymLt ((monthsAxis orders).get ⟨i, hi⟩) ((monthsAxis orders).get ⟨j, hj⟩) := by
  have hle := List.pairwise_iff_get.mp (monthsAxis_sorted orders) ⟨i, hi⟩ ⟨j, hj⟩ hij
  simp only [decide_eq_true_eq] at hle
  apply ymLe_ne_lt _ _ hle
  intro he
  have := (List.Nodup.get_inj_iff (monthsAxis_nodup orders)).mp he
  rw [Fin.mk.injEq] at this
  omega

theorem mem_buyersByMonth (orders : List Order) (k : Nat × Nat) (c : String) :
    c ∈ buyersByMonth orders k ↔
      ∃ o ∈ orders, o.customer_id = c ∧ ymOf o.order_dt = k := by
  unfold buyersByMonth
  rw [List.mem_toFinset, List.mem_map]
  constructor
  · rintro ⟨o, ho, rfl⟩
    rw [List.mem_filter] at ho
    exact ⟨o, ho.1, rfl, by simpa using ho.2⟩
  · rintro ⟨o, ho, rfl, hk⟩
    exact ⟨o, List.mem_filter.mpr ⟨ho, by simp [hk]⟩, rfl⟩

theorem foldl_foStep_some (l : List Order) (c : String) (d : DateT) :
    ∀ m : String → Option DateT, (l.foldl foStep m) c = some d →
      m c = some d ∨ ∃ o ∈ l, o.customer_id = c ∧ o.order_dt = d := by
  induction l with
  | nil => intro m h; exact Or.inl h
  | cons o l ih =>
    intro m h
    rw [List.foldl_cons] at h
    rcases ih (foStep m o) h with h1 | ⟨o2, ho2, h2⟩
    · unfold foStep at h1
      split_ifs at h1 with hcond
      · exact Or.inr ⟨o, List.mem_cons_self o l, hcond.2.symm, Option.some.inj h1⟩
      · exact Or.inl h1
    · exact Or.inr ⟨o2, List.mem_cons_of_mem o ho2, h2⟩

theorem firstOrderF_mem (orders : List Order) (c : String) (d : DateT)
    (h : firstOrderF orders c = some d) :
    ∃ o ∈ orders, o.customer_id = c ∧ o.order_dt = d := by
  unfold firstOrderF at h
  rcases foldl_foStep_some (sortOrdersByDt orders) c d (fun _ => none) h with h1 | ⟨o, ho, h2⟩
  · exact absurd h1 (by simp)
  · exact ⟨o, (List.mergeSort_perm orders _).mem_iff.mp ho, h2⟩

theorem mem_cohortMembers (orders : List Order) (k : Nat × Nat) (c : String) :
    c ∈ cohortMembers orders k ↔
      c ∈ buyersOf orders ∧ (firstOrderF orders c).map ymOf = some k := by
  unfold cohortMembers
  rw [List.mem_toFinset, List.mem_filter]
  simp

theorem retention_cell (orders : List Order) (i j : Nat)
    (hi : i < (monthsAxis orders).length) (hj : j < (monthsAxis orders).length) :
    ((retention orders).getD i []).getD j (some 0)
      = if j < i then none
        else some
          (if (cohortMembers orders
               ((monthsAxis orders).getD i ((0 : Nat), (0 : Nat)))).card ≠ 0
           then (((cohortMembers orders ((monthsAxis orders).getD i (0, 0))).filter
               (fun c => c ∈ buyersByMonth orders
                 ((monthsAxis orders).getD j (0, 0)))).card : Rat)
             / ((cohortMembers orders ((monthsAxis orders).getD i (0, 0))).card : Rat)
           else 0) := by
  rw [List.getD_eq_getElem (monthsAxis orders) (0, 0) hi,
      List.getD_eq_getElem (monthsAxis orders) (0, 0) hj]
  simp only [retention, List.getD_eq_getElem?_getD, List.getElem?_mapIdx,
    List.getElem?_eq_getElem hi, List.getElem?_eq_getElem hj,
    Option.map_some, Option.map_some', Option.getD_some]

theorem months_idx_lt_iff (orders : List Order) (i j : Nat)
    (hi : i < (monthsAxis orders).length) (hj : j < (monthsAxis orders).length) :
    j < i ↔ ymLt ((monthsAxis orders).getD j (0, 0))
      ((monthsAxis orders).getD i (0, 0)) := by
  rw [List.getD_eq_getElem (monthsAxis orders) (0, 0) hi,
      List.getD_eq_getElem (monthsAxis orders) (0, 0) hj]
  constructor
  · intro hji
    have hlt := monthsAxis_get_lt orders j i hj hi hji
    rw [List.get_eq_getElem, List.get_eq_getElem] at hlt
    exact hlt
  · intro hlt
    by_contra hji
    push_neg at hji
    rcases eq_or_lt_of_le hji with heq | hij
    · subst heq
      exact ymLt_irrefl _ hlt
    · have h2 := monthsAxis_get_lt orders i j hi hj hij
      rw [List.get_eq_getElem, List.get_eq_getElem] at h2
      exact ymLt_asymm _ _ h2 hlt

/-- C6: with `months` the shared sorted axis, cell `(i, j)` of the
retention matrix is `null` exactly when month `j` chronologically precedes
cohort `i`'s month (the matrix is upper-triangular); otherwise it equals
`|cohort_i ∩ active_j| / |cohort_i|` (0 for an empty cohort), where
`active_j` is the set of distinct customer ids with at least one order in
calendar month `j`. -/
theorem retention_spec (orders : List Order) (i j : Nat)
    (hi : i < (monthsAxis orders).length) (hj : j < (monthsAxis orders).length) :
    (((retention orders).getD i []).getD j (some 0) = none ↔
      ymLt ((monthsAxis orders).getD j (0, 0)) ((monthsAxis orders).getD i (0, 0))) ∧
    (¬ ymLt ((monthsAxis orders).getD j (0, 0)) ((monthsAxis orders).getD i (0, 0)) →
      ((retention orders).getD i []).getD j (some 0)
        = some (if (cohortMembers orders ((monthsAxis orders).getD i (0, 0))).card = 0
            then 0
            else ((cohortMembers orders ((monthsAxis orders).getD i (0, 0))
                ∩ buyersByMonth orders ((monthsAxis orders).getD j (0, 0))).card : Rat)
              / ((cohortMembers orders ((monthsAxis orders).getD i (0, 0))).card : Rat))) ∧
    (∀ (k : Nat × Nat) (c : String), c ∈ buyersByMonth orders k ↔
      ∃ o ∈ orders, o.customer_id = c ∧ ymOf o.order_dt = k) := by
  have hcell := retention_cell orders i j hi hj
  have hidx := months_idx_lt_iff orders i j hi hj
  refine ⟨?_, ?_, mem_buyersByMonth orders⟩
  · rw [hcell]
    constructor
    · intro hnone
      by_cases hji : j < i
      · exact hidx.mp hji
      · rw [if_neg hji] at hnone
        exact absurd hnone (by simp)
    · intro hlt
      rw [if_pos (hidx.mpr hlt)]
  · intro hlt
    rw [hcell, if_neg (fun hji => hlt (hidx.mp hji))]
    congr 1
    rw [Finset.filter_mem_eq_inter]
    by_cases hcard :
        (cohortMembers orders ((monthsAxis orders).getD i (0, 0))).card = 0
    · simp [hcard]
    · simp [hcard]

theorem cohort_subset_active (orders : List Order) (k : Nat × Nat) :
    ∀ c ∈ cohortMembers orders k, c ∈ buyersByMonth orders k := by
  intro c hc
  rw [mem_cohortMembers] at hc
  obtain ⟨hb, hfo⟩ := hc
  cases hd : firstOrderF orders c with
  | none => rw [hd] at hfo; simp at hfo
  | some d =>
    rw [hd, Option.map_some'] at hfo
    obtain ⟨o, ho, hoc, hod⟩ := firstOrderF_mem orders c d hd
    rw [mem_buyersByMonth]
    exact ⟨o, ho, hoc, by rw [hod]; exact Option.some.inj hfo⟩

theorem retention_diag_one (orders : List Order) (i : Nat)
    (hi : i < (monthsAxis orders).length)
    (hcard : (cohortMembers orders ((monthsAxis orders).getD i (0, 0))).card ≠ 0) :
    ((retention orders).getD i []).getD i (some 0) = some 1 := by
  rw [retention_cell orders i i hi hi, if_neg (lt_irrefl i), if_pos hcard]
  have hsub : (cohortMembers orders ((monthsAxis orders).getD i (0, 0))).filter
      (fun c => c ∈ buyersByMonth orders ((monthsAxis orders).getD i (0, 0)))
      = cohortMembers orders ((monthsAxis orders).getD i (0, 0)) :=
    Finset.filter_true_of_mem
      (fun c hc => cohort_subset_active orders ((monthsAxis orders).getD i (0, 0)) c hc)
  rw [hsub]
  congr 1
  rw [div_self]
  exact_mod_cast hcard

/-- C7 (amended): for every cohort row `i` with at least one member, the
diagonal cell `(i, i)` always equals 1.0 — each member's acquisition order
itself makes them active in the acquisition month, whether or not they
ordered again (the claim's "equals 1.0 only if every cohort member ordered
again" direction is false). -/
theorem retention_diag_spec (orders : List Order) (i : Nat)
    (hi : i < (monthsAxis orders).length)
    (hcard : (cohortMembers orders ((monthsAxis orders).getD i (0, 0))).card ≠ 0) :
    ((retention orders).getD i []).getD i (some 0) = some 1 :=
  retention_diag_one orders i hi hcard

/-- A cohort of two buyers in 2023-01: `C1` orders twice in the month,
`C2` only once (never orders again). -/
def cohOrders : List Order :=
  [mkOrd "C1" 1 2023 1, mkOrd "C1" 2 2023 1, mkOrd "C2" 3 2023 1]

theorem cohOrders_sorted : sortOrdersByDt cohOrders = cohOrders :=
  List.mergeSort_of_sorted (by decide)

theorem cohOrders_axis : monthsAxis cohOrders = [(2023, 1)] := by
  have h1 : monthsAxis cohOrders
      = ([((2023 : Nat), (1 : Nat))]).mergeSort (fun a b => decide (ymLe a b)) := by
    unfold monthsAxis
    simp only [firstOrderF, cohOrders_sorted]
    congr 1
  rw [h1, List.mergeSort_singleton]

theorem cohOrders_cohort : cohortMembers cohOrders (2023, 1) = {"C1", "C2"} := by
  unfold cohortMembers
  simp only [firstOrderF, cohOrders_sorted]
  decide

/-- C7, counterexample: in the cohort `{C1, C2}` of 2023-01, member `C2`
ordered exactly once (did not order again in the acquisition month), yet
the diagonal retention cell equals 1.0 — contradicting the claim that the
diagonal equals 1.0 only if every cohort member ordered again, and is
otherwise strictly below 1.0. -/
theorem retention_diag_claim_cex :
    ((retention cohOrders).getD 0 []).getD 0 (some 0) = some 1 ∧
    "C2" ∈ cohortMembers cohOrders (2023, 1) ∧
    (cohOrders.filter (fun o => o.customer_id = "C2")).length = 1 := by
  refine ⟨?_, ?_, by decide⟩
  · apply retention_diag_one cohOrders 0
    · rw [cohOrders_axis]
      decide
    · rw [cohOrders_axis]
      rw [show ([((2023 : Nat), (1 : Nat))].getD 0 (0, 0)) = (2023, 1) from rfl,
        cohOrders_cohort]
      decide
  · rw [cohOrders_cohort]
    decide

/-- C6 witness: the retention theorem applied to a concrete dataset at the
diagonal index. -/
theorem retention_spec_witness :
    (0 < (monthsAxis cohOrders).length) ∧
    ((((retention cohOrders).getD 0 []).getD 0 (some 0) = none) ↔
      ymLt ((monthsAxis cohOrders).getD 0 (0, 0))
        ((monthsAxis cohOrders).getD 0 (0, 0))) :=
  ⟨by rw [cohOrders_axis]; decide,
   (retention_spec cohOrders 0 0 (by rw [cohOrders_axis]; decide)
      (by rw [cohOrders_axis]; decide)).1⟩

/-- C7 witness: the amended diagonal theorem applied to the concrete
two-buyer cohort. -/
theorem retention_diag_spec_witness :
    (0 < (monthsAxis cohOrders).length) ∧
    ((cohortMembers cohOrders ((monthsAxis cohOrders).getD 0 (0, 0))).card ≠ 0) ∧
    ((retention cohOrders).getD 0 []).getD 0 (some 0) = some 1 :=
  ⟨by rw [cohOrders_axis]; decide,
   by
     rw [cohOrders_axis]
     rw [show ([((2023 : Nat), (1 : Nat))].getD 0 (0, 0)) = (2023, 1) from rfl,
       cohOrders_cohort]
     decide,
   retention_diag_spec cohOrders 0 (by rw [cohOrders_axis]; decide)
     (by
       rw [cohOrders_axis]
       rw [show ([((2023 : Nat), (1 : Nat))].getD 0 (0, 0)) = (2023, 1) from rfl,
         cohOrders_cohort]
       decide)⟩

end VibeAnalysis
